import Mathlib

/-!
# Verification of the edabits conversion core (`ocelot/src/edabits/edabits.rs`)

This file gives a shallow embedding of the cleartext semantics of the edabits
conversion protocol and proves/refutes the frozen claims about it.

Modelling conventions:
* `F2` is `ZMod 2`; the prime field `F_p` is `ZMod p` with `p` a parameter.
* An authenticated value `MacProver<F>` is a pair (cleartext, MAC); the claims
  are about the cleartext components, so the embedding tracks the cleartext
  component of every authenticated value.  The homomorphic combinators of the
  commitment collaborator (`add`, `neg`, `affine_add_cst`, `affine_mult_cst`)
  act on cleartexts as the corresponding field operations (spec section 6 and
  section 3: they are local and preserve authentication).
* Fallible Rust code returns `Except String α`; a Rust panic (out-of-bounds
  indexing) is modelled by `Option`: `none` is a panic.
* The `AesRng` pseudorandom generator (external collaborator, crate
  `scuttlebutt`) is modelled as a stream `f : ℕ → ℕ` of uniform draws together
  with a counter; `gen_range(0..i)` consumes one draw and reduces it `% i`.
-/

namespace EdabitsConv

/-- The binary field `F2` of the source (`scuttlebutt::field::F2`). -/
abbrev F2 := ZMod 2

/-- Cleartext of `f2_to_fe` (edabits.rs line 72): constant-time select of
`FE::ONE`/`FE::ZERO` on `b.ct_eq(&F2::ZERO)`, i.e. `0` if `b = 0` else `1`. -/
def f2_to_fe (p : ℕ) (b : F2) : ZMod p :=
  if b = 0 then 0 else 1

/-- `convert_bits_to_field` (edabits.rs line 77): Horner fold from the
most-significant bit:  `res = 0; for b in v.iter().rev() { res += res; res += f2_to_fe(b) }`. -/
def convert_bits_to_field (p : ℕ) (v : List F2) : ZMod p :=
  v.reverse.foldl (fun res b => (res + res) + f2_to_fe p b) 0

/-- Little-endian integer value of a bit vector (specification-side helper,
used to state what the code computes). -/
def bitsVal : List F2 → ℕ
  | [] => 0
  | b :: bs => b.val + 2 * bitsVal bs

lemma f2_cases (x : F2) : x = 0 ∨ x = 1 := by
  revert x
  decide

lemma f2_to_fe_eq_cast (p : ℕ) (b : F2) : f2_to_fe p b = (b.val : ZMod p) := by
  rcases f2_cases b with h | h <;> subst h
  · norm_num [f2_to_fe, show (0 : F2).val = 0 from rfl]
  · norm_num [f2_to_fe, show (1 : F2).val = 1 from rfl]

lemma convert_bits_to_field_foldl (p : ℕ) (l : List F2) (a : ZMod p) :
    l.foldl (fun res b => (res + res) + f2_to_fe p b) a =
      a * 2 ^ l.length + l.foldl (fun res b => (res + res) + f2_to_fe p b) 0 := by
  induction l generalizing a with
  | nil => simp
  | cons b bs ih =>
    rw [List.foldl_cons, List.foldl_cons, ih ((a + a) + f2_to_fe p b),
        ih ((0 + 0) + f2_to_fe p b)]
    simp only [List.length_cons, pow_succ]
    ring

lemma convert_bits_to_field_cast (p : ℕ) (v : List F2) :
    convert_bits_to_field p v = (bitsVal v : ZMod p) := by
  induction v with
  | nil => simp [convert_bits_to_field, bitsVal]
  | cons b bs ih =>
    unfold convert_bits_to_field at *
    rw [List.reverse_cons, List.foldl_append, List.foldl_cons, List.foldl_nil, ih,
        f2_to_fe_eq_cast, bitsVal]
    push_cast
    ring

lemma bitsVal_eq_sum (v : List F2) :
    bitsVal v = ∑ i ∈ Finset.range v.length, (v.getD i 0).val * 2 ^ i := by
  induction v with
  | nil => simp [bitsVal]
  | cons b bs ih =>
    rw [bitsVal, ih, List.length_cons, Finset.sum_range_succ', Finset.mul_sum]
    simp only [List.getD_cons_succ, List.getD_cons_zero, pow_zero, mul_one, pow_succ]
    rw [Finset.sum_congr rfl
      (fun i _ => by ring :
        ∀ i ∈ Finset.range bs.length,
          2 * ((bs.getD i 0).val * 2 ^ i) = (bs.getD i 0).val * (2 ^ i * 2))]
    omega

/-- C6: Horner fold correctness.  `convert_bits_to_field bs` equals
`∑ i, lift(bs[i]) · 2^i` in the target field, least-significant bit at index 0. -/
theorem claim_C6_convert_bits_to_field_horner (p : ℕ) (bs : List F2) :
    convert_bits_to_field p bs =
      ∑ i ∈ Finset.range bs.length, f2_to_fe p (bs.getD i 0) * 2 ^ i := by
  rw [convert_bits_to_field_cast, bitsVal_eq_sum]
  push_cast
  exact Finset.sum_congr rfl fun i _ => by rw [f2_to_fe_eq_cast]

/-! ## Parameter check (`check_parameters`, edabits.rs lines 123-154) -/

/-- `usize::leading_zeros` for a 64-bit word: `64 - (bit length of x)`.
(`Nat.size` is the bit length.)  Faithful for `x < 2^64`, the range of `usize`. -/
def leading_zeros (x : ℕ) : ℕ := 64 - Nat.size x

/-- `log2_floor` as defined inside `check_parameters`:
`size_of::<usize>() * 8 - 1 - leading_zeros(x)`. -/
def log2_floor (x : ℕ) : ℕ := 64 - 1 - leading_zeros x

/-- `check_parameters::<FE>(n, gamma)` (edabits.rs line 123).  `numBits` stands
for `FE::NumberOfBitsInBitDecomposition::USIZE`.  The interpolated values in
the error message are elided. -/
def check_parameters (numBits n gamma : ℕ) : Except String Unit :=
  if log2_floor (n + 1) + gamma ≥ numBits - 1 then
    Except.error "Fdabit invalid parameter configuration"
  else
    Except.ok ()

lemma size_eq_log2_succ {x : ℕ} (hx : 1 ≤ x) : Nat.size x = Nat.log2 x + 1 := by
  have h1 : Nat.size x ≤ Nat.log2 x + 1 := by
    rw [Nat.size_le, Nat.log2_eq_log_two]
    exact Nat.lt_pow_succ_log_self (by norm_num) x
  have h2 : Nat.log2 x < Nat.size x := by
    rw [Nat.lt_size, Nat.log2_eq_log_two]
    exact Nat.pow_log_le_self 2 (by omega)
  omega

lemma log2_floor_eq {x : ℕ} (h1 : 1 ≤ x) (h2 : x < 2 ^ 64) : log2_floor x = Nat.log2 x := by
  have hsz : Nat.size x ≤ 64 := Nat.size_le.mpr h2
  have := size_eq_log2_succ h1
  unfold log2_floor leading_zeros
  omega

/-- C5: parameter-check completeness.  For `n` in the `usize` range,
`check_parameters` returns an error exactly when
`⌊log2(n+1)⌋ + gamma ≥ numBits - 1` (with `numBits` the field's bit
decomposition length, i.e. `⌈log2 p⌉`), and `Ok` otherwise. -/
theorem claim_C5_check_parameters (numBits n gamma : ℕ) (hn : n + 1 < 2 ^ 64) :
    (check_parameters numBits n gamma = Except.error "Fdabit invalid parameter configuration"
      ↔ Nat.log2 (n + 1) + gamma ≥ numBits - 1) ∧
    (check_parameters numBits n gamma = Except.ok ()
      ↔ ¬ (Nat.log2 (n + 1) + gamma ≥ numBits - 1)) := by
  rw [check_parameters, log2_floor_eq (by omega) hn]
  constructor
  · constructor
    · intro h
      by_contra hc
      rw [if_neg hc] at h
      exact Except.noConfusion h
    · intro h
      rw [if_pos h]
  · constructor
    · intro h
      by_contra hc
      rw [if_pos hc] at h
      exact Except.noConfusion h
    · intro h
      rw [if_neg h]

/-- Witness for C5 at `numBits = 61`, `n = 1000`, `gamma = 11`:
`⌊log2 1001⌋ = 9` and `9 + 11 < 60`, so the check succeeds; instantiating the
other direction at `gamma = 51` makes it fail. -/
theorem claim_C5_check_parameters_witness :
    (check_parameters 61 1000 11 = Except.ok () ↔ ¬ (Nat.log2 (1000 + 1) + 11 ≥ 61 - 1)) ∧
    (check_parameters 61 1000 51 = Except.error "Fdabit invalid parameter configuration"
      ↔ Nat.log2 (1000 + 1) + 51 ≥ 61 - 1) :=
  ⟨(claim_C5_check_parameters 61 1000 11 (by norm_num)).2,
   (claim_C5_check_parameters 61 1000 51 (by norm_num)).1⟩

/-! ## Data model (cleartext components of `EdabitsProver` / `DabitProver`) -/

/-- Cleartext component of an edabit: the `.0` parts of `bits: Vec<MacProver<F40b>>`
and `value: MacProver<FE>` (edabits.rs line 19). Least-significant bit at index 0. -/
structure Edabit (p : ℕ) where
  bits : List F2
  value : ZMod p
deriving DecidableEq

instance (p : ℕ) : Inhabited (Edabit p) := ⟨⟨[], 0⟩⟩

/-- Cleartext component of a dabit (edabits.rs line 57). -/
structure Dabit (p : ℕ) where
  bit : F2
  value : ZMod p
deriving DecidableEq

instance (p : ℕ) : Inhabited (Dabit p) := ⟨⟨0, 0⟩⟩

/-! ## `bit_add_carry` (edabits.rs lines 232-330)

The source iterates bit-position-major over the batch (`for i in 0..m { for n
in 0..num { ... } }`) so that the Verifier receives one `input` batch per bit
position.  The cleartext state of batch element `n` — `ci_batch[n]`,
`z_batch[n]` — is read and written only at index `n`, so each element's
cleartext evolves independently of the others; `bitAddCarryElem` is that
per-element evolution with the bit-position loop as the recursion.  Per
position: `and1 = x_i + c`, `and2 = y_i + c`, `and_res = and1 * and2`
(the Prover's secret product, `input` as a new authenticated bit),
`z_i = and1 + y_i` and the next carry `c + and_res`. -/

/-- Per-batch-element cleartext of `bit_add_carry`: given the two bit vectors
and the running carry, return the sum bits and the carry out. -/
def bitAddCarryElem : List F2 → List F2 → F2 → List F2 × F2
  | x :: xs, y :: ys, c =>
    let and1 := x + c
    let and2 := y + c
    let and_res := and1 * and2
    let z := and1 + y
    let rest := bitAddCarryElem xs ys (c + and_res)
    (z :: rest.1, rest.2)
  | _, _, c => ([], c)

/-- Batched `bit_add_carry` on cleartexts.  Mirrors the source's control flow:
first the length check (`Err("incompatible input vectors in bit_add_carry")`),
then the unguarded access `x_batch[0].bits.len()` — a panic (`none`) on an
empty batch — and otherwise the per-element ripple-carry with initial carry
`0` (`ci_batch = vec![F2::ZERO; num]`).  The source's `debug_assert!`s make
every element's bit vectors have the length `m` of `x_batch[0].bits`; the
claims hypothesize this, and under it the element-wise recursion consumes
exactly `m` positions.  The recorded triples `(and1, and2, and_res)` satisfy
the multiplication relation by construction (`and_res = and1_clr * and2.0` in
the clear), so the batched `quicksilver_check_multiply` /
`wolverine_check_multiply` before the return passes in the cleartext model and
the sum/carry outputs are delivered unchanged. -/
def bit_add_carry (p : ℕ) (x_batch y_batch : List (Edabit p)) :
    Option (Except String (List (List F2 × F2))) :=
  if x_batch.length ≠ y_batch.length then
    some (Except.error "incompatible input vectors in bit_add_carry")
  else
    match x_batch.head? with
    | none => none
    | some _ =>
      some (Except.ok ((x_batch.zip y_batch).map
        (fun e => bitAddCarryElem e.1.bits e.2.bits 0)))

lemma bitAddCarryElem_key (x y c : F2) :
    (x + c + y).val + 2 * (c + (x + c) * (y + c)).val = x.val + y.val + c.val := by
  revert x y c
  decide

lemma bitAddCarryElem_length {x y : List F2} (h : x.length = y.length) (c : F2) :
    (bitAddCarryElem x y c).1.length = x.length := by
  induction x generalizing y c with
  | nil =>
    cases y with
    | nil => rfl
    | cons b bs => exact absurd h (by simp)
  | cons a as ih =>
    cases y with
    | nil => exact absurd h (by simp)
    | cons b bs =>
      simp only [bitAddCarryElem, List.length_cons]
      rw [ih (by simpa using h)]

/-- The main adder invariant: the output value plus `2^m` times the carry-out
equals the sum of the input values plus the carry-in. -/
lemma bitAddCarryElem_val {x y : List F2} (h : x.length = y.length) (c : F2) :
    bitsVal (bitAddCarryElem x y c).1 + 2 ^ x.length * ((bitAddCarryElem x y c).2).val =
      bitsVal x + bitsVal y + c.val := by
  induction x generalizing y c with
  | nil =>
    cases y with
    | nil => simp [bitAddCarryElem, bitsVal]
    | cons b bs => exact absurd h (by simp)
  | cons a as ih =>
    cases y with
    | nil => exact absurd h (by simp)
    | cons b bs =>
      have hl : as.length = bs.length := by simpa using h
      simp only [bitAddCarryElem, bitsVal, List.length_cons]
      have hrec := ih hl (c + (a + c) * (b + c))
      have hkey := bitAddCarryElem_key a b c
      have hpow : 2 ^ (as.length + 1) *
            ((bitAddCarryElem as bs (c + (a + c) * (b + c))).2).val =
          2 * (2 ^ as.length * ((bitAddCarryElem as bs (c + (a + c) * (b + c))).2).val) := by
        rw [pow_succ]
        ring
      omega

lemma bitsVal_lt (v : List F2) : bitsVal v < 2 ^ v.length := by
  induction v with
  | nil => simp [bitsVal]
  | cons b bs ih =>
    have hb : b.val < 2 := ZMod.val_lt b
    simp only [bitsVal, List.length_cons, pow_succ]
    omega

/-- Element-level adder correctness: output bits are the `m` low bits of the
integer sum, the carry-out is bit `m`. -/
lemma bitAddCarryElem_correct {m : ℕ} {x y : List F2} (hx : x.length = m)
    (hy : y.length = m) :
    (bitAddCarryElem x y 0).1.length = m ∧
    bitsVal (bitAddCarryElem x y 0).1 = (bitsVal x + bitsVal y) % 2 ^ m ∧
    ((bitAddCarryElem x y 0).2).val = ((bitsVal x + bitsVal y) / 2 ^ m) % 2 ∧
    ((bitAddCarryElem x y 0).2 = 1 ↔ Nat.testBit (bitsVal x + bitsVal y) m) := by
  have hlen : x.length = y.length := hx.trans hy.symm
  have hL := bitAddCarryElem_length hlen 0
  have hV := bitAddCarryElem_val hlen 0
  rw [hx] at hL hV
  rw [show ((0 : F2)).val = 0 from rfl, Nat.add_zero] at hV
  have hSlt : bitsVal (bitAddCarryElem x y 0).1 < 2 ^ m := by
    have h1 := bitsVal_lt (bitAddCarryElem x y 0).1
    rwa [hL] at h1
  have hClt : ((bitAddCarryElem x y 0).2).val < 2 := ZMod.val_lt _
  have hmod : (bitsVal x + bitsVal y) % 2 ^ m = bitsVal (bitAddCarryElem x y 0).1 := by
    rw [← hV, Nat.add_mul_mod_self_left, Nat.mod_eq_of_lt hSlt]
  have hdiv : (bitsVal x + bitsVal y) / 2 ^ m = ((bitAddCarryElem x y 0).2).val := by
    rw [← hV, Nat.add_mul_div_left _ _ (pow_pos (by norm_num : (0 : ℕ) < 2) m),
        Nat.div_eq_of_lt hSlt, Nat.zero_add]
  refine ⟨hL, hmod.symm, ?_, ?_⟩
  · rw [hdiv, Nat.mod_eq_of_lt hClt]
  · rw [Nat.testBit_to_div_mod, hdiv, Nat.mod_eq_of_lt hClt]
    rcases f2_cases (bitAddCarryElem x y 0).2 with h | h <;> rw [h] <;> decide

/-- C1: ripple-carry adder correctness.  For every `m ≥ 1` and equal-length
batches of edabits whose bit vectors all have length `m`, `bit_add_carry`
succeeds, and for each batch element the cleartext output bits are the `m` low
bits of the integer sum of the two input bit vectors (length `m`, value
`(x + y) mod 2^m`) and the carry-out is bit `m` of that sum. -/
theorem claim_C1_bit_add_carry_correct (p m : ℕ) (_hm : 1 ≤ m)
    (x_batch y_batch : List (Edabit p)) (hlen : x_batch.length = y_batch.length)
    (hx : ∀ e ∈ x_batch, e.bits.length = m) (hy : ∀ e ∈ y_batch, e.bits.length = m)
    (k : ℕ) (hk : k < x_batch.length) :
    ∃ res, bit_add_carry p x_batch y_batch = some (Except.ok res) ∧
      res.length = x_batch.length ∧
      ((res.getD k ([], 0)).1.length = m ∧
       bitsVal (res.getD k ([], 0)).1 =
         (bitsVal (x_batch.getD k default).bits + bitsVal (y_batch.getD k default).bits) % 2 ^ m ∧
       ((res.getD k ([], 0)).2).val =
         ((bitsVal (x_batch.getD k default).bits + bitsVal (y_batch.getD k default).bits)
           / 2 ^ m) % 2 ∧
       ((res.getD k ([], 0)).2 = 1 ↔
         Nat.testBit
           (bitsVal (x_batch.getD k default).bits + bitsVal (y_batch.getD k default).bits) m)) := by
  have hne : x_batch ≠ [] := by
    intro hnil
    rw [hnil] at hk
    exact absurd hk (by simp)
  obtain ⟨e0, rest, hcons⟩ := List.exists_cons_of_ne_nil hne
  refine ⟨(x_batch.zip y_batch).map (fun e => bitAddCarryElem e.1.bits e.2.bits 0), ?_, ?_, ?_⟩
  · rw [bit_add_carry, if_neg (by rw [hlen]; exact fun h => h rfl), hcons]
    rfl
  · rw [List.length_map, List.length_zip, hlen, Nat.min_self, ← hlen]
  · -- identify the k-th output with the element-level adder on the k-th inputs
    have hkz : k < (x_batch.zip y_batch).length := by
      rw [List.length_zip, hlen, Nat.min_self, ← hlen]; exact hk
    have hky : k < y_batch.length := hlen ▸ hk
    have hget : ((x_batch.zip y_batch).map
        (fun e => bitAddCarryElem e.1.bits e.2.bits 0)).getD k ([], 0) =
        bitAddCarryElem (x_batch.getD k default).bits (y_batch.getD k default).bits 0 := by
      rw [List.getD_eq_getElem _ _ (by rwa [List.length_map]), List.getElem_map,
          List.getElem_zip, List.getD_eq_getElem _ _ hk, List.getD_eq_getElem _ _ hky]
    rw [hget]
    have hxmem : x_batch.getD k default ∈ x_batch := by
      rw [List.getD_eq_getElem _ _ hk]
      exact List.getElem_mem hk
    have hymem : y_batch.getD k default ∈ y_batch := by
      rw [List.getD_eq_getElem _ _ hky]
      exact List.getElem_mem hky
    exact bitAddCarryElem_correct (hx _ hxmem) (hy _ hymem)

/-- Witness for C1: the one-element batch `x = [1,1]` (3), `y = [1,0]` (1) at
`m = 2`; the theorem yields the concrete outputs `3 + 1 = 4 = 100₂`. -/
theorem claim_C1_bit_add_carry_correct_witness :
    ∃ res, bit_add_carry 5 [⟨[1, 1], 0⟩] [⟨[1, 0], 0⟩] = some (Except.ok res) ∧
      res.length = ([⟨[1, 1], 0⟩] : List (Edabit 5)).length ∧
      ((res.getD 0 ([], 0)).1.length = 2 ∧
       bitsVal (res.getD 0 ([], 0)).1 =
         (bitsVal (([⟨[1, 1], 0⟩] : List (Edabit 5)).getD 0 default).bits +
          bitsVal (([⟨[1, 0], 0⟩] : List (Edabit 5)).getD 0 default).bits) % 2 ^ 2 ∧
       ((res.getD 0 ([], 0)).2).val =
         ((bitsVal (([⟨[1, 1], 0⟩] : List (Edabit 5)).getD 0 default).bits +
           bitsVal (([⟨[1, 0], 0⟩] : List (Edabit 5)).getD 0 default).bits) / 2 ^ 2) % 2 ∧
       ((res.getD 0 ([], 0)).2 = 1 ↔
         Nat.testBit
           (bitsVal (([⟨[1, 1], 0⟩] : List (Edabit 5)).getD 0 default).bits +
            bitsVal (([⟨[1, 0], 0⟩] : List (Edabit 5)).getD 0 default).bits) 2)) :=
  claim_C1_bit_add_carry_correct 5 2 (by norm_num) [⟨[1, 1], 0⟩] [⟨[1, 0], 0⟩] rfl
    (by decide) (by decide) 0 (by norm_num)

/-- C4 counterexample: on the claimed 6-bit scenario the adder does NOT produce
sum bits `[0,0,0,0,1,0]` with carry 1: the inputs are `x = 43`, `y = 29`, so the
sum is `72 = 1001000₂`, whose 6 low bits are `[0,0,0,1,0,0]` — the claimed
bits encode `16`, not `8`. -/
theorem claim_C4_counterexample :
    bit_add_carry 5 [⟨[1, 1, 0, 1, 0, 1], 0⟩] [⟨[1, 0, 1, 1, 1, 0], 0⟩] ≠
      some (Except.ok [([0, 0, 0, 0, 1, 0], 1)]) := by
  intro h
  have : ([([0, 0, 0, 1, 0, 0], 1)] : List (List F2 × F2)) = [([0, 0, 0, 0, 1, 0], 1)] := by
    have hcomp : bit_add_carry 5 [⟨[1, 1, 0, 1, 0, 1], 0⟩] [⟨[1, 0, 1, 1, 1, 0], 0⟩] =
        some (Except.ok [([0, 0, 0, 1, 0, 0], 1)]) := by rfl
    rw [hcomp] at h
    exact Except.ok.inj (Option.some.inj h)
  exact absurd this (by decide)

/-- C4 amended: on the single-element batch with `x` bits `[1,1,0,1,0,1]`
(x = 43 = 101011₂) and `y` bits `[1,0,1,1,1,0]` (y = 29 = 011101₂),
`bit_add_carry` produces sum bits `[0,0,0,1,0,0]` (little-endian; 72 mod 64 = 8)
and carry-out 1. -/
theorem claim_C4_amended_adder_6bit :
    bit_add_carry 5 [⟨[1, 1, 0, 1, 0, 1], 0⟩] [⟨[1, 0, 1, 1, 1, 0], 0⟩] =
      some (Except.ok [([0, 0, 0, 1, 0, 0], 1)]) := by rfl

/-! ## `convert_bit_2_field` (edabits.rs lines 191-226 prover, 860-896 verifier)

Per position: `c = r.bit + x` over `F2` is opened; with `c_m = f2_to_fe c` the
output is `conditional_select(bneq, beq, c == 1)` where
`beq = affine_add_cst(c_m, neg(r.value)) = c_m - r.value` and
`bneq = affine_add_cst(c_m, r.value) = c_m + r.value`; `subtle`'s
`conditional_select(&a, &b, choice)` returns `b` when `choice` holds.  The
source `assert_eq!`s the two batch lengths; the claims hypothesize equality, so
the zip below traverses exactly the positions the source does. -/

/-- Cleartext of one position of `convert_bit_2_field`. -/
def convertBit2FieldElem (p : ℕ) (r : Dabit p) (x : F2) : ZMod p :=
  let c := r.bit + x
  let c_m := f2_to_fe p c
  if c = 1 then c_m + -r.value else c_m + r.value

/-- Batched `convert_bit_2_field` cleartexts: the opened `c_batch` and the
output `x_m_batch`. -/
def convert_bit_2_field (p : ℕ) (r_batch : List (Dabit p)) (x_batch : List F2) :
    List F2 × List (ZMod p) :=
  ((r_batch.zip x_batch).map (fun e => e.1.bit + e.2),
   (r_batch.zip x_batch).map (fun e => convertBit2FieldElem p e.1 e.2))

lemma convertBit2FieldElem_correct (p : ℕ) (r : Dabit p) (x : F2)
    (hr : r.value = f2_to_fe p r.bit) :
    convertBit2FieldElem p r x = f2_to_fe p x := by
  unfold convertBit2FieldElem
  rcases f2_cases r.bit with hb | hb <;> rcases f2_cases x with hx | hx <;>
    simp only [hb, hx] at hr ⊢
  · rw [show (0 : F2) + 0 = 0 from by decide, if_neg (by decide : ¬ (0 : F2) = 1), hr]
    simp [f2_to_fe]
  · rw [show (0 : F2) + 1 = 1 from by decide, if_pos rfl, hr]
    simp [f2_to_fe]
  · rw [show (1 : F2) + 0 = 1 from by decide, if_pos rfl, hr]
    simp only [f2_to_fe, if_neg (by decide : ¬ (1 : F2) = 0),
      if_pos (rfl : (0 : F2) = 0)]
    simp
  · rw [show (1 : F2) + 1 = 0 from by decide, if_neg (by decide : ¬ (0 : F2) = 1), hr]
    simp only [f2_to_fe, if_neg (by decide : ¬ (1 : F2) = 0),
      if_pos (rfl : (0 : F2) = 0)]
    simp

/-- C3: `convert_bit_2_field` correctness.  For every position `i` whose dabit
is honest (`r.value = lift(r.bit)`), the opened value is `d = r.bit + x` and
the `F_p` output equals `lift(x)`. -/
theorem claim_C3_convert_bit_2_field_correct (p : ℕ) (r_batch : List (Dabit p))
    (x_batch : List F2) (hlen : r_batch.length = x_batch.length) (i : ℕ)
    (hi : i < r_batch.length)
    (hhonest : (r_batch.getD i default).value = f2_to_fe p (r_batch.getD i default).bit) :
    (convert_bit_2_field p r_batch x_batch).1.getD i 0 =
      (r_batch.getD i default).bit + x_batch.getD i 0 ∧
    (convert_bit_2_field p r_batch x_batch).2.getD i 0 = f2_to_fe p (x_batch.getD i 0) := by
  have hix : i < x_batch.length := hlen ▸ hi
  have hiz : i < (r_batch.zip x_batch).length := by
    rw [List.length_zip, hlen, Nat.min_self]
    exact hix
  have hzip : (r_batch.zip x_batch)[i] = (r_batch.getD i default, x_batch.getD i 0) := by
    rw [List.getElem_zip, List.getD_eq_getElem _ _ hi, List.getD_eq_getElem _ _ hix]
  constructor
  · rw [convert_bit_2_field, List.getD_eq_getElem _ _ (by rwa [List.length_map]),
        List.getElem_map, hzip]
  · rw [convert_bit_2_field, List.getD_eq_getElem _ _ (by rwa [List.length_map]),
        List.getElem_map, hzip]
    exact convertBit2FieldElem_correct p _ _ hhonest

/-- Witness for C3 at the honest dabit `(bit, value) = (1, 1)` over `F_5` and
input bit `x = 1`: the opened value is `0` and the output is `lift(1) = 1`. -/
theorem claim_C3_convert_bit_2_field_correct_witness :
    (convert_bit_2_field 5 [⟨1, 1⟩] [1]).1.getD 0 0 =
      (([⟨1, 1⟩] : List (Dabit 5)).getD 0 default).bit + ([1] : List F2).getD 0 0 ∧
    (convert_bit_2_field 5 [⟨1, 1⟩] [1]).2.getD 0 0 = f2_to_fe 5 (([1] : List F2).getD 0 0) :=
  claim_C3_convert_bit_2_field_correct 5 [⟨1, 1⟩] [1] rfl 0 (by norm_num) (by decide)

/-! ## Shuffle (`generate_permutation`, edabits.rs lines 109-121)

```
let size = v.len();
if size == 0 { return; }
let mut i = size - 1;
while i > 0 { let idx = rng.gen_range(0..i); v.swap(idx, i); i -= 1; }
```
The RNG is an `AesRng` (external collaborator): it is modelled as a stream
`f : ℕ → ℕ` of uniform draws plus a counter `c`; `gen_range(0..i)` consumes
draw `f c` and reduces it into the half-open range as `f c % i` (the range is
exclusive of `i`, exactly as in the source). -/

/-- `Vec::swap` on lists (in-bounds in every use below; an out-of-range index
leaves the list unchanged). -/
def listSwap {α : Type _} (l : List α) (i j : ℕ) : List α :=
  match l.get? i, l.get? j with
  | some a, some b => (l.set i b).set j a
  | _, _ => l

/-- The `while i > 0` loop of `generate_permutation`: the first argument is the
current value of `i`; returns the shuffled list and the new RNG counter. -/
def gpLoop {α : Type _} (f : ℕ → ℕ) : ℕ → ℕ → List α → List α × ℕ
  | 0, c, v => (v, c)
  | i + 1, c, v => gpLoop f i (c + 1) (listSwap v (f c % (i + 1)) (i + 1))

/-- `generate_permutation` on the RNG stream/counter model. -/
def generate_permutation {α : Type _} (f : ℕ → ℕ) (c : ℕ) (v : List α) : List α × ℕ :=
  if v.length = 0 then (v, c) else gpLoop f (v.length - 1) c v

lemma listSwap_length {α : Type _} (l : List α) (i j : ℕ) :
    (listSwap l i j).length = l.length := by
  unfold listSwap
  cases l.get? i <;> cases l.get? j <;> simp

lemma gpLoop_length {α : Type _} (f : ℕ → ℕ) (i c : ℕ) (v : List α) :
    (gpLoop f i c v).1.length = v.length := by
  induction i generalizing c v with
  | zero => rfl
  | succ i ih => rw [gpLoop, ih, listSwap_length]

lemma gpLoop_counter {α : Type _} (f : ℕ → ℕ) (i c : ℕ) (v : List α) :
    (gpLoop f i c v).2 = c + i := by
  induction i generalizing c v with
  | zero => rfl
  | succ i ih =>
    rw [gpLoop, ih]
    omega

lemma listSwap_map {α β : Type _} (g : α → β) (l : List α) (i j : ℕ) :
    listSwap (l.map g) i j = (listSwap l i j).map g := by
  unfold listSwap
  rw [List.get?_eq_getElem?, List.get?_eq_getElem?, List.getElem?_map, List.getElem?_map,
      List.get?_eq_getElem?, List.get?_eq_getElem?]
  cases l[i]? <;> cases l[j]? <;> simp [List.map_set]

lemma gpLoop_map {α β : Type _} (g : α → β) (f : ℕ → ℕ) (i c : ℕ) (v : List α) :
    (gpLoop f i c (v.map g)).1 = ((gpLoop f i c v).1).map g := by
  induction i generalizing c v with
  | zero => rfl
  | succ i ih => rw [gpLoop, gpLoop, listSwap_map, ih]

lemma generate_permutation_map {α β : Type _} (g : α → β) (f : ℕ → ℕ) (c : ℕ)
    (v : List α) :
    (generate_permutation f c (v.map g)).1 = ((generate_permutation f c v).1).map g := by
  unfold generate_permutation
  rw [List.length_map]
  by_cases h : v.length = 0
  · rw [if_pos h, if_pos h]
  · rw [if_neg h, if_neg h, gpLoop_map]

lemma self_eq_range_map {α : Type _} (d : α) (v : List α) :
    v = (List.range v.length).map (fun i => v.getD i d) := by
  apply List.ext_getElem
  · simp
  · intro i h1 h2
    simp only [List.getElem_map, List.getElem_range]
    rw [List.getD_eq_getElem _ _ h1]

/-- C8: shuffle determinism.  `generate_permutation` applied to two
same-length vectors with the same RNG stream and counter applies the identical
index permutation — namely the one it induces on `List.range` — and leaves the
RNG counters equal, so the subsequent pool shuffles of `conv` (edabits, dabits,
triples, consumed sequentially from one seeded RNG, edabits.rs lines
1311-1322 and 704-711) stay aligned between Prover and Verifier. -/
theorem claim_C8_shuffle_determinism {α β : Type _} (f : ℕ → ℕ) (c : ℕ)
    (v : List α) (w : List β) (dv : α) (dw : β) (h : v.length = w.length) :
    (generate_permutation f c v).1 =
      ((generate_permutation f c (List.range v.length)).1).map (fun i => v.getD i dv) ∧
    (generate_permutation f c w).1 =
      ((generate_permutation f c (List.range v.length)).1).map (fun i => w.getD i dw) ∧
    (generate_permutation f c v).2 = (generate_permutation f c w).2 := by
  refine ⟨?_, ?_, ?_⟩
  · conv_lhs => rw [self_eq_range_map dv v]
    rw [generate_permutation_map]
  · conv_lhs => rw [self_eq_range_map dw w, ← h]
    rw [generate_permutation_map]
  · unfold generate_permutation
    rw [← h]
    by_cases h0 : v.length = 0
    · rw [if_pos h0, if_pos h0]
    · rw [if_neg h0, if_neg h0, gpLoop_counter, gpLoop_counter]

/-- Witness for C8: the pools `[10, 20, 30]` and `[true, false, true]` with the
stream `f = id` from counter `0` are permuted by the same index permutation. -/
theorem claim_C8_shuffle_determinism_witness :
    (generate_permutation id 0 [10, 20, 30]).1 =
      ((generate_permutation id 0 (List.range ([10, 20, 30] : List ℕ).length)).1).map
        (fun i => ([10, 20, 30] : List ℕ).getD i 7) ∧
    (generate_permutation id 0 [true, false, true]).1 =
      ((generate_permutation id 0 (List.range ([10, 20, 30] : List ℕ).length)).1).map
        (fun i => ([true, false, true] : List Bool).getD i false) ∧
    (generate_permutation id 0 [10, 20, 30]).2 =
      (generate_permutation id 0 [true, false, true]).2 :=
  claim_C8_shuffle_determinism id 0 [10, 20, 30] [true, false, true] 7 false rfl

lemma listSwap_get?_of_ne {α : Type _} (l : List α) (i j k : ℕ) (hi : k ≠ i)
    (hj : k ≠ j) : (listSwap l i j).get? k = l.get? k := by
  unfold listSwap
  cases l.get? i <;> cases l.get? j <;>
    simp [List.getElem?_set_ne, (Ne.symm hi), (Ne.symm hj)]

lemma gpLoop_get?_of_gt {α : Type _} (f : ℕ → ℕ) (i c : ℕ) (v : List α) (k : ℕ)
    (hk : i < k) : ((gpLoop f i c v).1).get? k = v.get? k := by
  induction i generalizing c v with
  | zero => rfl
  | succ i ih =>
    rw [gpLoop, ih _ _ (by omega), listSwap_get?_of_ne]
    · exact fun h => absurd (h ▸ Nat.mod_lt (f c) (by omega) : k < i + 1) (by omega)
    · omega

lemma listSwap_get?_right {α : Type _} (l : List α) (i j : ℕ) (hi : i < l.length)
    (hj : j < l.length) : (listSwap l i j).get? j = l.get? i := by
  unfold listSwap
  simp only [List.get?_eq_getElem?]
  rw [List.getElem?_eq_getElem hi, List.getElem?_eq_getElem hj]
  rw [List.getElem?_set_eq_of_lt _ (by rwa [List.length_set])]

/-- C9: implicit shuffle bias.  Because the swap index is drawn from the
half-open range `0..i` (Sattolo-style) rather than the inclusive Fisher-Yates
range, the element initially at the last index never stays in place: for every
stream and counter and every `n ≥ 2`, position `n-1` of the shuffled
`List.range n` does not hold `n-1`, and in particular the identity permutation
is never produced. -/
theorem claim_C9_shuffle_never_fixes_last (f : ℕ → ℕ) (c n : ℕ) (h : 2 ≤ n) :
    (generate_permutation f c (List.range n)).1.getD (n - 1) 0 ≠ n - 1 ∧
    (generate_permutation f c (List.range n)).1 ≠ List.range n := by
  have hlen : (List.range n).length = n := List.length_range n
  have hidx : f c % (n - 1) < n - 1 := Nat.mod_lt (f c) (by omega)
  have hget : (generate_permutation f c (List.range n)).1.get? (n - 1) =
      some (f c % (n - 1)) := by
    unfold generate_permutation
    rw [hlen, if_neg (by omega)]
    obtain ⟨i, hi⟩ : ∃ i, n - 1 = i + 1 := ⟨n - 2, by omega⟩
    rw [hi, gpLoop, gpLoop_get?_of_gt _ _ _ _ _ (by omega), ← hi,
        listSwap_get?_right _ _ _ (by omega) (by rw [hlen]; omega),
        List.get?_eq_getElem?, List.getElem?_range (by omega : f c % (n - 1) < n)]
  have hmain : (generate_permutation f c (List.range n)).1.getD (n - 1) 0 =
      f c % (n - 1) := by
    rw [List.getD_eq_getElem?_getD, ← List.get?_eq_getElem?, hget]
    rfl
  constructor
  · rw [hmain]
    omega
  · intro heq
    rw [heq] at hmain
    rw [List.getD_eq_getElem _ _ (by omega : n - 1 < (List.range n).length),
        List.getElem_range] at hmain
    omega

/-- Witness for C9 at `n = 3`, stream `f = id`, counter `0`. -/
theorem claim_C9_shuffle_never_fixes_last_witness :
    (generate_permutation id 0 (List.range 3)).1.getD (3 - 1) 0 ≠ 3 - 1 ∧
    (generate_permutation id 0 (List.range 3)).1 ≠ List.range 3 :=
  claim_C9_shuffle_never_fixes_last id 0 3 (by norm_num)

/-! ## `fdabit` (edabits.rs lines 428-601 prover, 1053-1178 verifier)

Cleartext model of the consistency check for a batch of dabits.  The Prover's
γ·s random padding bits are the parameter `cbits k i` (step 1); the verifier's
challenge coefficients expanded by AES-CTR from the transmitted seed are the
parameter `e k i` (step 3) — quantifying over `e` quantifies over the seed.
`open` reveals the Prover's cleartexts, so in the cleartext model the opened
`r_k`/`τ_k` are the values computed in steps 4-7.  `bit_decomposition()[0]` is
the low bit of the canonical integer representative, i.e. `val % 2`. -/

/-- `FDABIT_SECURITY_PARAMETER` (edabits.rs line 69). -/
def FDABIT_SECURITY_PARAMETER : ℕ := 38

/-- The `twos` accumulator of step 7: starts at `FE::PrimeField::ONE` and is
doubled (`twos += twos`) once per iteration; `twosPow p i` is its value when
entering iteration `i`. -/
def twosPow (p : ℕ) : ℕ → ZMod p
  | 0 => 1
  | i + 1 => twosPow p i + twosPow p i

/-- Modelled from the spec: `FCom.quicksilver_check_multiply` belongs to the
homomorphic commitment collaborator (`super::homcom`, not under `src/`).  Per
spec section 6 it is a "batched multiplication-triple check" aborting on
failure, so its cleartext semantics accepts exactly when every triple
`(a, b, c)` satisfies `c = a·b`. -/
def quicksilver_check_multiply (p : ℕ) (triples : List (ZMod p × ZMod p × ZMod p)) :
    Except String Unit :=
  if triples.all (fun t => decide (t.2.2 = t.1 * t.2.1)) then Except.ok ()
  else Except.error "multiplication check failed"

/-- Step 1, second part: `c1[k]` is the `F_2` version of the first padding bit,
recovered from its lifted `F_p` value `c_m[k][0]` (edabits.rs lines 468-475). -/
def fdabitC1 (p : ℕ) (cbits : ℕ → ℕ → F2) (k : ℕ) : F2 :=
  if f2_to_fe p (cbits k 0) = (0 : ZMod p) then 0 else 1

/-- Step 4: `r_k = c1[k] + Σ_i e[k][i] · dabits[i].bit` over `F_2`
(`affine_mult_cst` multiplies the cleartext by the public coefficient). -/
def fdabitR (p : ℕ) (dabits : List (Dabit p)) (cbits e : ℕ → ℕ → F2) (k : ℕ) : F2 :=
  fdabitC1 p cbits k +
    ∑ i ∈ Finset.range dabits.length, e k i * (dabits.getD i default).bit

/-- Step 6: `r'_k = Σ_i lift(e[k][i]) · dabits[i].value` over `F_p`. -/
def fdabitRPrime (p : ℕ) (dabits : List (Dabit p)) (e : ℕ → ℕ → F2) (k : ℕ) : ZMod p :=
  ∑ i ∈ Finset.range dabits.length, f2_to_fe p (e k i) * (dabits.getD i default).value

/-- Step 7: `τ_k = r'_k + Σ_{i<γ} twos_i · c_m[k][i]` over `F_p`. -/
def fdabitTau (p : ℕ) (dabits : List (Dabit p)) (cbits e : ℕ → ℕ → F2)
    (gamma k : ℕ) : ZMod p :=
  fdabitRPrime p dabits e k +
    ∑ i ∈ Finset.range gamma, twosPow p i * f2_to_fe p (cbits k i)

/-- Step 2: the `s·γ` triples `(c, 1 - c, c·(1 - c))` where
`minus_ci = affine_mult_cst(-1, c)` and `one_minus_ci = affine_add_cst(1, minus_ci)`;
the Prover inputs the cleartext product `andl * one_minus_ci`. -/
def fdabitTriples (p : ℕ) (cbits : ℕ → ℕ → F2) (s gamma : ℕ) :
    List (ZMod p × ZMod p × ZMod p) :=
  (List.range s).flatMap (fun k => (List.range gamma).map (fun i =>
    let andl := f2_to_fe p (cbits k i)
    let one_minus_ci := (1 : ZMod p) + (-1 : ZMod p) * andl
    (andl, one_minus_ci, andl * one_minus_ci)))

/-- `fdabit` (Prover side; in an honest run the Verifier opens exactly these
cleartexts in steps 5 and 7 and its step 8 computes the same booleans).
`gamma = num_bits - (n+1).leading_zeros() - 1 + 1` with `num_bits = 64`. -/
def fdabit (p numBits : ℕ) (dabits : List (Dabit p)) (cbits e : ℕ → ℕ → F2) :
    Except String Unit :=
  let s := FDABIT_SECURITY_PARAMETER
  let n := dabits.length
  let gamma := 64 - leading_zeros (n + 1) - 1 + 1
  match check_parameters numBits n gamma with
  | Except.error msg => Except.error msg
  | Except.ok _ =>
    let res := (List.range s).all (fun k =>
      decide (fdabitR p dabits cbits e k = 1) ==
        decide ((fdabitTau p dabits cbits e gamma k).val % 2 = 1))
    match quicksilver_check_multiply p (fdabitTriples p cbits s gamma) with
    | Except.error msg => Except.error msg
    | Except.ok _ =>
      if res then Except.ok () else Except.error "fail fdabit prover"

lemma twosPow_eq (p i : ℕ) : twosPow p i = ((2 ^ i : ℕ) : ZMod p) := by
  induction i with
  | zero => simp [twosPow]
  | succ i ih =>
    rw [twosPow, ih, pow_succ]
    push_cast
    ring

lemma f2_cast_val (x : F2) : ((x.val : ℕ) : F2) = x := by
  rcases f2_cases x with h | h <;> rw [h] <;> rfl

lemma f2_natCast_eq_one (m : ℕ) : ((m : ℕ) : F2) = 1 ↔ m % 2 = 1 := by
  have hv : ((m : ℕ) : F2).val = m % 2 := ZMod.val_natCast m
  rcases f2_cases ((m : ℕ) : F2) with h0 | h0 <;> rw [h0] at hv ⊢
  · rw [show ((0 : F2)).val = 0 from rfl] at hv
    constructor
    · intro h
      exact absurd h (by decide)
    · omega
  · rw [show ((1 : F2)).val = 1 from rfl] at hv
    constructor
    · intro _
      omega
    · intro _
      rfl

lemma fdabitC1_eq (p : ℕ) (hp : 1 < p) (cbits : ℕ → ℕ → F2) (k : ℕ) :
    fdabitC1 p cbits k = cbits k 0 := by
  haveI : Fact (1 < p) := ⟨hp⟩
  unfold fdabitC1
  rcases f2_cases (cbits k 0) with h | h <;> rw [h]
  · rw [if_pos (by simp [f2_to_fe])]
  · rw [if_neg (by simp only [f2_to_fe, if_neg (by decide : ¬ (1 : F2) = 0)]; exact one_ne_zero)]

lemma fdabitR_cast (p : ℕ) (hp : 1 < p) (dabits : List (Dabit p))
    (cbits e : ℕ → ℕ → F2) (k : ℕ) :
    fdabitR p dabits cbits e k =
      (((cbits k 0).val + ∑ i ∈ Finset.range dabits.length,
        (e k i).val * ((dabits.getD i default).bit).val : ℕ) : F2) := by
  rw [fdabitR, fdabitC1_eq p hp]
  push_cast [f2_cast_val]
  rfl

lemma fdabitTau_cast (p : ℕ) (dabits : List (Dabit p)) (cbits e : ℕ → ℕ → F2)
    (gamma k : ℕ) (hhonest : ∀ d ∈ dabits, d.value = f2_to_fe p d.bit) :
    fdabitTau p dabits cbits e gamma k =
      ((∑ i ∈ Finset.range dabits.length,
          (e k i).val * ((dabits.getD i default).bit).val
        + ∑ i ∈ Finset.range gamma, 2 ^ i * (cbits k i).val : ℕ) : ZMod p) := by
  rw [fdabitTau, fdabitRPrime]
  have hvals : ∀ i ∈ Finset.range dabits.length,
      f2_to_fe p (e k i) * (dabits.getD i default).value =
        (((e k i).val * ((dabits.getD i default).bit).val : ℕ) : ZMod p) := by
    intro i hi
    rw [Finset.mem_range] at hi
    have hmem : dabits.getD i default ∈ dabits := by
      rw [List.getD_eq_getElem _ _ hi]
      exact List.getElem_mem hi
    rw [hhonest _ hmem, f2_to_fe_eq_cast, f2_to_fe_eq_cast]
    push_cast
    ring
  have hpad : ∀ i ∈ Finset.range gamma,
      twosPow p i * f2_to_fe p (cbits k i) =
        ((2 ^ i * (cbits k i).val : ℕ) : ZMod p) := by
    intro i _
    rw [twosPow_eq, f2_to_fe_eq_cast]
    push_cast
    ring
  rw [Finset.sum_congr rfl hvals, Finset.sum_congr rfl hpad]
  push_cast
  ring

lemma sum_pow_two (g : ℕ) : ∑ i ∈ Finset.range g, 2 ^ i = 2 ^ g - 1 := by
  induction g with
  | zero => rfl
  | succ g ih =>
    rw [Finset.sum_range_succ, ih, pow_succ]
    have := Nat.one_le_two_pow (n := g)
    omega

lemma fdabit_sum_lt (p numBits n : ℕ) (hp : 2 ^ (numBits - 1) < p)
    (hcheck : ¬ (Nat.log2 (n + 1) + (Nat.log2 (n + 1) + 1) ≥ numBits - 1))
    (a c : ℕ → ℕ) (ha : ∀ i, a i ≤ 1) (hc : ∀ i, c i ≤ 1) :
    ∑ i ∈ Finset.range n, a i +
      ∑ i ∈ Finset.range (Nat.log2 (n + 1) + 1), 2 ^ i * c i < p := by
  have h1 : n + 1 < 2 ^ (Nat.log2 (n + 1) + 1) := by
    rw [Nat.log2_eq_log_two]
    exact Nat.lt_pow_succ_log_self (by norm_num) (n + 1)
  have hA : ∑ i ∈ Finset.range n, a i ≤ n := by
    calc ∑ i ∈ Finset.range n, a i ≤ ∑ _i ∈ Finset.range n, 1 :=
          Finset.sum_le_sum fun i _ => ha i
      _ = n := by simp
  have hC : ∑ i ∈ Finset.range (Nat.log2 (n + 1) + 1), 2 ^ i * c i ≤
      2 ^ (Nat.log2 (n + 1) + 1) - 1 := by
    calc ∑ i ∈ Finset.range (Nat.log2 (n + 1) + 1), 2 ^ i * c i
        ≤ ∑ i ∈ Finset.range (Nat.log2 (n + 1) + 1), 2 ^ i := by
          refine Finset.sum_le_sum fun i _ => ?_
          have := hc i
          calc 2 ^ i * c i ≤ 2 ^ i * 1 := Nat.mul_le_mul_left _ this
            _ = 2 ^ i := Nat.mul_one _
      _ = 2 ^ (Nat.log2 (n + 1) + 1) - 1 := sum_pow_two _
  have h2 : 2 ^ (Nat.log2 (n + 1) + 2) ≤ 2 ^ (numBits - 1) :=
    Nat.pow_le_pow_right (by norm_num) (by omega)
  have h3 : (2 : ℕ) ^ (Nat.log2 (n + 1) + 2) = 2 * 2 ^ (Nat.log2 (n + 1) + 1) := by
    ring
  omega

lemma pad_sum_parity (c : ℕ → ℕ) (g : ℕ) :
    (∑ i ∈ Finset.range (g + 1), 2 ^ i * c i) % 2 = c 0 % 2 := by
  rw [Finset.sum_range_succ']
  simp only [pow_succ, pow_zero, one_mul]
  rw [show ∑ i ∈ Finset.range g, 2 ^ i * 2 * c (i + 1) =
      2 * ∑ i ∈ Finset.range g, 2 ^ i * c (i + 1) by
    rw [Finset.mul_sum]
    exact Finset.sum_congr rfl fun i _ => by ring]
  omega

/-- Core completeness of `fdabit` on honest dabits (shared helper). -/
lemma fdabit_honest_ok (p numBits : ℕ) (dabits : List (Dabit p))
    (cbits e : ℕ → ℕ → F2)
    (hp : 2 ^ (numBits - 1) < p)
    (hn : dabits.length + 1 < 2 ^ 64)
    (hhonest : ∀ d ∈ dabits, d.value = f2_to_fe p d.bit)
    (hcheck : check_parameters numBits dabits.length
      (64 - leading_zeros (dabits.length + 1) - 1 + 1) = Except.ok ()) :
    fdabit p numBits dabits cbits e = Except.ok () ∧
    (∀ k, fdabitR p dabits cbits e k = 1 ↔
      (fdabitTau p dabits cbits e
        (64 - leading_zeros (dabits.length + 1) - 1 + 1) k).val % 2 = 1) ∧
    quicksilver_check_multiply p
      (fdabitTriples p cbits FDABIT_SECURITY_PARAMETER
        (64 - leading_zeros (dabits.length + 1) - 1 + 1)) = Except.ok () := by
  have hp1 : 1 < p := lt_of_le_of_lt Nat.one_le_two_pow hp
  have hgamma : 64 - leading_zeros (dabits.length + 1) - 1 + 1 =
      Nat.log2 (dabits.length + 1) + 1 := by
    have hsz : Nat.size (dabits.length + 1) = Nat.log2 (dabits.length + 1) + 1 :=
      size_eq_log2_succ (by omega)
    have hszle : Nat.size (dabits.length + 1) ≤ 64 := Nat.size_le.mpr hn
    unfold leading_zeros
    omega
  have hlt : ¬ (Nat.log2 (dabits.length + 1) +
      (Nat.log2 (dabits.length + 1) + 1) ≥ numBits - 1) := by
    intro hge
    rw [check_parameters, log2_floor_eq (by omega) hn, hgamma, if_pos hge] at hcheck
    exact Except.noConfusion hcheck
  have hstep8 : ∀ k, fdabitR p dabits cbits e k = 1 ↔
      (fdabitTau p dabits cbits e
        (64 - leading_zeros (dabits.length + 1) - 1 + 1) k).val % 2 = 1 := by
    intro k
    have hR := fdabitR_cast p hp1 dabits cbits e k
    have hT := fdabitTau_cast p dabits cbits e
      (64 - leading_zeros (dabits.length + 1) - 1 + 1) k hhonest
    have hTlt : ∑ i ∈ Finset.range dabits.length,
          (e k i).val * ((dabits.getD i default).bit).val +
        ∑ i ∈ Finset.range (64 - leading_zeros (dabits.length + 1) - 1 + 1),
          2 ^ i * (cbits k i).val < p := by
      rw [hgamma]
      refine fdabit_sum_lt p numBits dabits.length hp hlt _ _ ?_ ?_
      · intro i
        have h1 : (e k i).val < 2 := ZMod.val_lt _
        have h2 : ((dabits.getD i default).bit).val < 2 := ZMod.val_lt _
        calc (e k i).val * ((dabits.getD i default).bit).val ≤ 1 * 1 :=
              Nat.mul_le_mul (by omega) (by omega)
          _ = 1 := rfl
      · intro i
        have := ZMod.val_lt (cbits k i)
        omega
    have hval : (fdabitTau p dabits cbits e
        (64 - leading_zeros (dabits.length + 1) - 1 + 1) k).val =
        ∑ i ∈ Finset.range dabits.length,
          (e k i).val * ((dabits.getD i default).bit).val +
        ∑ i ∈ Finset.range (64 - leading_zeros (dabits.length + 1) - 1 + 1),
          2 ^ i * (cbits k i).val := by
      rw [hT, ZMod.val_natCast, Nat.mod_eq_of_lt hTlt]
    have hparity : (∑ i ∈ Finset.range (64 - leading_zeros (dabits.length + 1) - 1 + 1),
        2 ^ i * (cbits k i).val) % 2 = (cbits k 0).val % 2 := by
      rw [hgamma]
      exact pad_sum_parity _ _
    rw [hR, hval, f2_natCast_eq_one]
    omega
  have hqs : quicksilver_check_multiply p
      (fdabitTriples p cbits FDABIT_SECURITY_PARAMETER
        (64 - leading_zeros (dabits.length + 1) - 1 + 1)) = Except.ok () := by
    rw [quicksilver_check_multiply, if_pos]
    rw [List.all_eq_true]
    intro t ht
    rw [fdabitTriples] at ht
    simp only [List.mem_flatMap, List.mem_map, List.mem_range] at ht
    obtain ⟨k, -, i, -, rfl⟩ := ht
    simp
  have hres : (List.range FDABIT_SECURITY_PARAMETER).all (fun k =>
      decide (fdabitR p dabits cbits e k = 1) ==
        decide ((fdabitTau p dabits cbits e
          (64 - leading_zeros (dabits.length + 1) - 1 + 1) k).val % 2 = 1)) = true := by
    rw [List.all_eq_true]
    intro k _
    rw [beq_iff_eq]
    exact decide_eq_decide.mpr (hstep8 k)
  refine ⟨?_, hstep8, hqs⟩
  simp only [fdabit, hcheck, hqs, hres, if_true]

/-- C2: `fdabit` completeness.  For every honest dabit batch (each `F_p` value
is the lift of the `F_2` bit), whenever `check_parameters(n, γ)` with
`γ = ⌊log2(n+1)⌋ + 1` succeeds, `fdabit` returns success for every choice of
the challenge coefficients `e` (i.e. of the verifier's seed) and of the
Prover's padding bits: the step-8 cross-field comparison holds for every
repetition and the step-2 triples all pass the batched multiplication check. -/
theorem claim_C2_fdabit_honest_complete (p numBits : ℕ) (dabits : List (Dabit p))
    (cbits e : ℕ → ℕ → F2)
    (hp : 2 ^ (numBits - 1) < p)
    (hn : dabits.length + 1 < 2 ^ 64)
    (hhonest : ∀ d ∈ dabits, d.value = f2_to_fe p d.bit)
    (hcheck : check_parameters numBits dabits.length
      (64 - leading_zeros (dabits.length + 1) - 1 + 1) = Except.ok ()) :
    fdabit p numBits dabits cbits e = Except.ok () ∧
    (∀ k, fdabitR p dabits cbits e k = 1 ↔
      (fdabitTau p dabits cbits e
        (64 - leading_zeros (dabits.length + 1) - 1 + 1) k).val % 2 = 1) ∧
    quicksilver_check_multiply p
      (fdabitTriples p cbits FDABIT_SECURITY_PARAMETER
        (64 - leading_zeros (dabits.length + 1) - 1 + 1)) = Except.ok () :=
  fdabit_honest_ok p numBits dabits cbits e hp hn hhonest hcheck

lemma size_two : Nat.size 2 = 2 :=
  Nat.le_antisymm (Nat.size_le.mpr (by norm_num)) (Nat.lt_size.mpr (by norm_num))

/-- Witness for C2: the single honest dabit `(1, 1)` over `F_p` with
`p = 2^61 - 1` (the modulus of `F61p`, `numBits = 61`), with all padding bits
and all challenge coefficients zero. -/
theorem claim_C2_fdabit_honest_complete_witness :
    fdabit (2 ^ 61 - 1) 61 [⟨1, 1⟩] (fun _ _ => 0) (fun _ _ => 0) = Except.ok () ∧
    (∀ k, fdabitR (2 ^ 61 - 1) [⟨1, 1⟩] (fun _ _ => 0) (fun _ _ => 0) k = 1 ↔
      (fdabitTau (2 ^ 61 - 1) [⟨1, 1⟩] (fun _ _ => 0) (fun _ _ => 0)
        (64 - leading_zeros (([⟨1, 1⟩] : List (Dabit (2 ^ 61 - 1))).length + 1) - 1 + 1)
        k).val % 2 = 1) ∧
    quicksilver_check_multiply (2 ^ 61 - 1)
      (fdabitTriples (2 ^ 61 - 1) (fun _ _ => 0) FDABIT_SECURITY_PARAMETER
        (64 - leading_zeros (([⟨1, 1⟩] : List (Dabit (2 ^ 61 - 1))).length + 1) - 1 + 1)) =
      Except.ok () :=
  claim_C2_fdabit_honest_complete (2 ^ 61 - 1) 61 [⟨1, 1⟩] (fun _ _ => 0) (fun _ _ => 0)
    (by norm_num)
    (by norm_num)
    (by
      intro d hd
      rw [List.mem_singleton] at hd
      subst hd
      show (1 : ZMod (2 ^ 61 - 1)) = f2_to_fe (2 ^ 61 - 1) 1
      rw [f2_to_fe, if_neg (by decide : ¬ (1 : F2) = 0)])
    (by
      show check_parameters 61 1 (64 - leading_zeros 2 - 1 + 1) = Except.ok ()
      rw [check_parameters, if_neg]
      simp only [log2_floor, leading_zeros]
      norm_num [size_two])

/-! ## `conv` driver (edabits.rs lines 671-822 prover, 1266-1466 verifier)

Cleartext control-flow model of the driver, quicksilver mode (the mode of the
crate's tests; in it the triple pool is empty and step 5b is skipped).  The
random pools produced interactively in step 1 (`random_edabits`,
`random_dabits`) are parameters; `fdabit` is the model above; the shuffle uses
the jointly seeded stream `f` starting at counter 0.  The verifier's step 5a
opens edabits `n·B + i` for `i < C` of the shuffled pool and checks
`convert_bits_to_field(bits) == value`, aborting with
`"Wrong open random edabit"`.  The per-bucket `conv_loop` bodies (step 6),
whose components `bit_add_carry` and `convert_bit_2_field` are modelled and
verified above, are abstracted as the outcome function `bucketOutcome` — the
claims about the driver quantify over them.  The dabit-pool shuffle (which
consumes the same stream after the edabit pool) only affects the abstracted
buckets, so it is absorbed into `bucketOutcome`. -/

/-- Step 5a loop body over the remaining cut indices (Verifier). -/
def cutCheckGo (p : ℕ) (r_pool : List (Edabit p)) (base : ℕ) :
    List ℕ → Except String Unit
  | [] => Except.ok ()
  | i :: rest =>
    if convert_bits_to_field p (r_pool.getD (base + i) default).bits ≠
        (r_pool.getD (base + i) default).value then
      Except.error "Wrong open random edabit"
    else cutCheckGo p r_pool base rest

/-- Step 5a (Verifier): `for i in 0..num_cut { let idx = base + i; open; check }`. -/
def cut_check (p : ℕ) (r_pool : List (Edabit p)) (base num_cut : ℕ) :
    Except String Unit :=
  cutCheckGo p r_pool base (List.range num_cut)

/-- Step 6: run the buckets `j = 0, …, B-1` in order, propagating the first
failure. -/
def runBuckets (bucketOutcome : ℕ → Except String Unit) :
    List ℕ → Except String Unit
  | [] => Except.ok ()
  | j :: rest =>
    match bucketOutcome j with
    | Except.error msg => Except.error msg
    | Except.ok _ => runBuckets bucketOutcome rest

/-- `VerifierConv::conv` control-flow model.  The very first protocol-relevant
step is the unguarded `edabits_vector[0].bits.len()` (edabits.rs line 1277):
on an empty caller list this is an out-of-bounds panic (`none`). -/
def VerifierConv_conv (p numBits num_bucket num_cut : ℕ)
    (edabits_vector r_pool : List (Edabit p)) (dabit_pool : List (Dabit p))
    (cbits e : ℕ → ℕ → F2) (f : ℕ → ℕ)
    (bucketOutcome : ℕ → Except String Unit) : Option (Except String Unit) :=
  match edabits_vector.head? with
  | none => none
  | some _ =>
    let n := edabits_vector.length
    match fdabit p numBits dabit_pool cbits e with
    | Except.error msg => some (Except.error msg)
    | Except.ok _ =>
      let shuffled_r := (generate_permutation f 0 r_pool).1
      match cut_check p shuffled_r (n * num_bucket) num_cut with
      | Except.error msg => some (Except.error msg)
      | Except.ok _ => some (runBuckets bucketOutcome (List.range num_bucket))

/-- `ProverConv::conv` control-flow model.  Same entry panic
(edabits.rs line 682); the Prover's step 5a only opens (no check), so after a
successful `fdabit` the outcome is that of the buckets. -/
def ProverConv_conv (p numBits num_bucket num_cut : ℕ)
    (edabits_vector r_pool : List (Edabit p)) (dabit_pool : List (Dabit p))
    (cbits e : ℕ → ℕ → F2) (f : ℕ → ℕ)
    (bucketOutcome : ℕ → Except String Unit) : Option (Except String Unit) :=
  match edabits_vector.head? with
  | none => none
  | some _ =>
    match fdabit p numBits dabit_pool cbits e with
    | Except.error msg => some (Except.error msg)
    | Except.ok _ => some (runBuckets bucketOutcome (List.range num_bucket))

lemma cutCheckGo_error (p : ℕ) (r_pool : List (Edabit p)) (base : ℕ) (L : List ℕ)
    (h : ∃ i ∈ L, convert_bits_to_field p (r_pool.getD (base + i) default).bits ≠
      (r_pool.getD (base + i) default).value) :
    cutCheckGo p r_pool base L = Except.error "Wrong open random edabit" := by
  induction L with
  | nil =>
    obtain ⟨i, hi, _⟩ := h
    exact absurd hi (List.not_mem_nil i)
  | cons j rest ih =>
    rw [cutCheckGo]
    by_cases hj : convert_bits_to_field p (r_pool.getD (base + j) default).bits ≠
        (r_pool.getD (base + j) default).value
    · rw [if_pos hj]
    · rw [if_neg hj]
      apply ih
      obtain ⟨i, hi, hbad⟩ := h
      rcases List.mem_cons.mp hi with rfl | hmem
      · exact absurd hbad hj
      · exact ⟨i, hmem, hbad⟩

/-- C7: cut-and-choose opening check.  In the Verifier's `conv`, after the
shuffle, the random edabits at indices `n·B + i` for `i < C` are opened, and if
any of them has `convert_bits_to_field(bits) ≠ value` then `conv` aborts with
`"Wrong open random edabit"` — whatever the buckets would have produced, i.e.
before any bucket's `conv_loop` runs. -/
theorem claim_C7_cut_open_aborts (p numBits num_bucket num_cut : ℕ)
    (edabits_vector r_pool : List (Edabit p)) (dabit_pool : List (Dabit p))
    (cbits e : ℕ → ℕ → F2) (f : ℕ → ℕ)
    (hne : edabits_vector ≠ [])
    (hfd : fdabit p numBits dabit_pool cbits e = Except.ok ())
    (hbad : ∃ i < num_cut,
      convert_bits_to_field p
        (((generate_permutation f 0 r_pool).1).getD
          (edabits_vector.length * num_bucket + i) default).bits ≠
      (((generate_permutation f 0 r_pool).1).getD
        (edabits_vector.length * num_bucket + i) default).value) :
    ∀ bucketOutcome, VerifierConv_conv p numBits num_bucket num_cut edabits_vector
      r_pool dabit_pool cbits e f bucketOutcome =
      some (Except.error "Wrong open random edabit") := by
  intro bucketOutcome
  obtain ⟨e0, rest, rfl⟩ := List.exists_cons_of_ne_nil hne
  have hcut : cut_check p ((generate_permutation f 0 r_pool).1)
      ((e0 :: rest).length * num_bucket) num_cut =
      Except.error "Wrong open random edabit" := by
    rw [cut_check]
    apply cutCheckGo_error
    obtain ⟨i, hi, hbad⟩ := hbad
    exact ⟨i, List.mem_range.mpr hi, hbad⟩
  simp only [VerifierConv_conv, List.head?_cons, hfd, hcut]

/-- Witness for C7: `n = 1`, `B = C = 1` over `F_5`; the two-element random
pool is reversed by the shuffle with the all-zero stream, placing the bad
edabit `([1], 0)` (whose bits fold to `1 ≠ 0`) at cut index `n·B = 1`, and the
driver instantiated with always-succeeding buckets still aborts. -/
theorem claim_C7_cut_open_aborts_witness :
    VerifierConv_conv 5 3 1 1 [⟨[0], 0⟩] [⟨[1], 0⟩, ⟨[0], 0⟩] [] (fun _ _ => 0)
      (fun _ _ => 0) (fun _ => 0) (fun _ => Except.ok ()) =
      some (Except.error "Wrong open random edabit") :=
  claim_C7_cut_open_aborts 5 3 1 1 [⟨[0], 0⟩] [⟨[1], 0⟩, ⟨[0], 0⟩] [] (fun _ _ => 0)
    (fun _ _ => 0) (fun _ => 0)
    (by intro h; exact List.noConfusion h)
    ((fdabit_honest_ok 5 3 [] (fun _ _ => 0) (fun _ _ => 0) (by norm_num) (by norm_num)
      (by intro d hd; exact absurd hd (List.not_mem_nil d))
      (by
        show check_parameters 3 0 (64 - leading_zeros 1 - 1 + 1) = Except.ok ()
        rw [check_parameters, if_neg]
        simp only [log2_floor, leading_zeros]
        norm_num [Nat.size_one])).1)
    ⟨0, by norm_num, by decide⟩
    (fun _ => Except.ok ())

/-- C10: implicit empty-input panics.  Both roles' `conv` read
`edabits_vector[0].bits.len()` and `bit_add_carry` reads
`x_batch[0].bits.len()` after its length check, all without a non-emptiness
check, so on an empty caller edabit list — and, for `bit_add_carry`, on two
empty (hence equal-length) batches — they panic (`none`) instead of returning
a protocol-input `Err` the way the other input errors do; a genuine length
mismatch by contrast yields the documented `Err`. -/
theorem claim_C10_empty_input_panics (p numBits num_bucket num_cut : ℕ)
    (r_pool : List (Edabit p)) (dabit_pool : List (Dabit p))
    (cbits e : ℕ → ℕ → F2) (f : ℕ → ℕ)
    (bucketOutcome : ℕ → Except String Unit) :
    ProverConv_conv p numBits num_bucket num_cut [] r_pool dabit_pool cbits e f
      bucketOutcome = none ∧
    VerifierConv_conv p numBits num_bucket num_cut [] r_pool dabit_pool cbits e f
      bucketOutcome = none ∧
    bit_add_carry p [] [] = none ∧
    bit_add_carry p [] [⟨[0], 0⟩] =
      some (Except.error "incompatible input vectors in bit_add_carry") :=
  ⟨rfl, rfl, rfl, rfl⟩

end EdabitsConv
